import Mathlib

/-!
Verification of the KWIC extraction pipeline in `extract.py`
(repository `willf/pearl_kwic`).

Python strings are modelled as `List Char`.  Each Python function of the
source is translated to an executable Lean definition carrying the same
name; the two pieces of behaviour that live outside the repository
(the `uniseg` word segmenter and `xml.etree` parsing) are modelled from
the specification and marked as such in their doc comments.
-/

namespace PearlKwic

/-- Python's Unicode whitespace set, as used by `str.split()`, `str.strip()`
and `str.isspace()`: the ASCII space/control whitespace plus the Unicode
space separators. -/
def pyIsSpace (c : Char) : Bool :=
  [' ', '\t', '\n', '\x0b', '\x0c', '\r',
   '\x1c', '\x1d', '\x1e', '\x1f', '\x85', '\xa0',
   '\u1680', '\u2000', '\u2001', '\u2002', '\u2003', '\u2004', '\u2005',
   '\u2006', '\u2007', '\u2008', '\u2009', '\u200a',
   '\u2028', '\u2029', '\u202f', '\u205f', '\u3000'].contains c

/-- Python `str.strip()`: drop leading and trailing whitespace. -/
def pyStrip (s : List Char) : List Char :=
  ((s.dropWhile pyIsSpace).reverse.dropWhile pyIsSpace).reverse

/-- Model of `text.replace("\n", " ").replace("\t", " ")` from `extract_kwic`
(src/extract.py line 226). -/
def replaceNlTab (s : List Char) : List Char :=
  s.map (fun c => if c = '\n' ∨ c = '\t' then ' ' else c)

/-- Helper for `pySplit`: `acc` holds the current in-progress word in
reverse order. -/
def pySplitAux (acc : List Char) : List Char → List (List Char)
  | [] => if acc.isEmpty then [] else [acc.reverse]
  | c :: rest =>
    if pyIsSpace c then
      if acc.isEmpty then pySplitAux [] rest
      else acc.reverse :: pySplitAux [] rest
    else pySplitAux (c :: acc) rest

/-- Python `str.split()` with no argument: the maximal runs of
non-whitespace characters, in order, separators discarded. -/
def pySplit (s : List Char) : List (List Char) :=
  pySplitAux [] s

/-- Python `" ".join(parts)` on a list of strings. -/
def joinSp : List (List Char) → List Char
  | [] => []
  | [w] => w
  | w :: v :: ws => w ++ ' ' :: joinSp (v :: ws)

/-- The whitespace normalization performed inline in `extract_kwic`
(src/extract.py lines 226-230): replace newlines and tabs by spaces,
collapse whitespace runs via `" ".join(text.split())`, then `strip()`. -/
def normalize (s : List Char) : List Char :=
  pyStrip (joinSp (pySplit (replaceNlTab s)))

example : pySplit "  ab  cd ".data = ["ab".data, "cd".data] := by decide
example : normalize "  a\n\tb  c ".data = "a b c".data := by decide
example : normalize "".data = [] := by decide

/-- Model of `contains_alphabetic` (src/extract.py lines 12-21):
`any(char.isalpha() for char in text)`.  Python's Unicode `isalpha` is
modelled on the ASCII alphabetic range. -/
def contains_alphabetic (text : List Char) : Bool :=
  text.any (fun c => c.isAlpha)

/-- Alphanumeric characters, the class that forms word spans in the
word-boundary segmentation model. -/
def isWordChar (c : Char) : Bool :=
  c.isAlpha || c.isDigit

/-- Two adjacent characters stay in the same span when both are word
characters or both are whitespace; every other character stands alone. -/
def wbGlue (a b : Char) : Bool :=
  (isWordChar a && isWordChar b) || (pyIsSpace a && pyIsSpace b)

/-- Helper for `chunk`: `a` is the last character taken into the current
span, `run` is the current span in reverse order. -/
def chunkAux (glue : Char → Char → Bool) (a : Char) (run : List Char) :
    List Char → List (List Char)
  | [] => [run.reverse]
  | c :: rest =>
    if glue a c then chunkAux glue c (c :: run) rest
    else run.reverse :: chunkAux glue c [c] rest

/-- Split a list into maximal runs of adjacent characters glued by `glue`. -/
def chunk (glue : Char → Char → Bool) : List Char → List (List Char)
  | [] => []
  | c :: rest => chunkAux glue c [c] rest

/-- Modelled from the spec: `uniseg.wordbreak.words`, the Unicode
word-boundary segmenter the source imports (not part of this repository).
The spec requires a lossless, deterministic decomposition of the input into
word and separator spans; the model takes maximal alphanumeric runs as word
spans, maximal whitespace runs as separator spans, and every other
character as its own span. -/
def words (s : List Char) : List (List Char) :=
  chunk wbGlue s

/-- Model of `split_on_words` (src/extract.py lines 24-34): for each segment of
`words text` that contains an alphabetic character, yield the triple of the
concatenation of the segments before it, the segment, and the concatenation
of the segments after it. -/
def split_on_words (text : List Char) :
    List (List Char × List Char × List Char) :=
  let ws := words text
  ws.enum.filterMap (fun p =>
    if contains_alphabetic p.2 then
      some ((ws.take p.1).flatten, p.2, (ws.drop (p.1 + 1)).flatten)
    else none)

example : words "ab, cd".data = ["ab".data, ",".data, " ".data, "cd".data] := by decide
example : split_on_words "ab cd".data =
    [([], "ab".data, " cd".data), ("ab ".data, "cd".data, [])] := by decide
example : split_on_words "12 !".data = [] := by decide

/-- The fixed dictionary-search endpoint of `create_search_link`
(src/extract.py line 46), up to the `q=` query parameter. -/
def searchUrlBase : List Char :=
  "https://quod.lib.umich.edu/m/middle-english-dictionary/dictionary?utf8=%E2%9C%93&search_field=hnf&q=".data

/-- Model of `create_search_link` (src/extract.py lines 37-46): the f-string
interpolates the word directly after `q=`, with no escaping. -/
def create_search_link (word : List Char) : List Char :=
  searchUrlBase ++ word

/-- Model of `create_word_reference` (src/extract.py lines 49-58):
`f"[{word}]({create_search_link(word)})"`. -/
def create_word_reference (word : List Char) : List Char :=
  '[' :: word ++ ']' :: '(' :: (create_search_link word ++ [')'])

/-- An XML element as `xml.etree` presents it: a qualified tag, the text
before the first child, the ordered children, and the tail text that
follows the element's closing point. `text`/`tail` model both Python's
`None` and `""` as the empty list, which the source's truthiness checks do
not distinguish. -/
inductive Element where
  | mk (tag : String) (text : List Char) (children : List Element)
       (tail : List Char)

def Element.tag : Element → String
  | .mk t _ _ _ => t

def Element.text : Element → List Char
  | .mk _ x _ _ => x

def Element.children : Element → List Element
  | .mk _ _ c _ => c

def Element.tail : Element → List Char
  | .mk _ _ _ t => t

theorem Element.tag_mk (t : String) (x : List Char) (c : List Element)
    (tl : List Char) : (Element.mk t x c tl).tag = t := rfl

theorem Element.text_mk (t : String) (x : List Char) (c : List Element)
    (tl : List Char) : (Element.mk t x c tl).text = x := rfl

theorem Element.children_mk (t : String) (x : List Char) (c : List Element)
    (tl : List Char) : (Element.mk t x c tl).children = c := rfl

theorem Element.tail_mk (t : String) (x : List Char) (c : List Element)
    (tl : List Char) : (Element.mk t x c tl).tail = tl := rfl

/-- The TEI namespace prefix used by the qualified tags in `keep_tags`. -/
def teiNs : String :=
  "\x7bhttp://www.tei-c.org/ns/1.0\x7d"

/-- Model of `keep_tags` of `extract_text` (src/extract.py lines 87-93). -/
def keep_tags : List String :=
  [teiNs ++ "persName", teiNs ++ "placeName", teiNs ++ "foreign",
   teiNs ++ "date", teiNs ++ "l"]

/-- Model of `extract_text` (src/extract.py lines 61-111): collect the element's own
leading text, then for each direct child the child's text when its tag is
allow-listed, and the child's tail unconditionally, each stripped; join the
non-empty parts with single spaces. -/
def extract_text (e : Element) : List Char :=
  let initParts : List (List Char) :=
    if e.text.isEmpty then [] else [pyStrip e.text]
  let childParts : List (List Char) :=
    e.children.flatMap (fun child =>
      (if keep_tags.contains child.tag && !child.text.isEmpty then
        [pyStrip child.text]
       else []) ++
      (if child.tail.isEmpty then [] else [pyStrip child.tail]))
  joinSp ((initParts ++ childParts).filter (fun p => !p.isEmpty))

/-- The docstring's simple example: a line holding one `space` child whose
tail is the verse text. -/
example :
    extract_text (.mk (teiNs ++ "l") []
      [.mk (teiNs ++ "space") [] [] "Of that precios perle wythouten spotte.".data]
      []) =
    "Of that precios perle wythouten spotte.".data := by decide

example :
    extract_text (.mk (teiNs ++ "l") []
      [.mk (teiNs ++ "space") [] [] "In ".data,
       .mk (teiNs ++ "date") "Augoste".data [] " in a hygh seysoun".data,
       .mk (teiNs ++ "note") "N".data [] "\n         ".data,
       .mk (teiNs ++ "note") "G".data [] [],
       .mk (teiNs ++ "space") [] [] [],
       .mk (teiNs ++ "gloss") "festival".data [] []]
      []) =
    "In Augoste in a hygh seysoun".data := by decide

/-- Model of `create_line_reference` (src/extract.py lines 159-168):
`f"[Pearl](https://metseditions.org/editions/RZ5r80ETbe1cKVpHvm1RUl9eMrNR8l): \x7bline_number\x7d"`. -/
def create_line_reference (line_number : Nat) : List Char :=
  "[Pearl](https://metseditions.org/editions/RZ5r80ETbe1cKVpHvm1RUl9eMrNR8l): ".data
    ++ (toString line_number).data

/-- Modelled from the source's `word.lower()`: Python's Unicode lowercasing,
as a character-wise map lowercasing the ASCII range. -/
def pyLower (s : List Char) : List Char :=
  s.map Char.toLower

/-- The header row written first by `extract_kwic`
(src/extract.py lines 207-217). -/
def headerRow : List (List Char) :=
  ["line_number".data, "reference".data, "left_context".data, "word".data,
   "right_context".data, "word_reference".data, "word_lower".data]

/-- One data row of `extract_kwic` (src/extract.py lines 233-243), for the
triple `t = (left, word, right)` on the line at index `line_number`.  The
integer first cell is written through `str`, as `csv.writer` renders it. -/
def kwicRow (line_number : Nat) (t : List Char × List Char × List Char) :
    List (List Char) :=
  [(toString line_number).data, create_line_reference line_number,
   t.1, t.2.1, t.2.2, create_word_reference t.2.1, pyLower t.2.1]

/-- Model of `extract_kwic` (src/extract.py lines 193-243) in terms of the rows it
writes: the header row, then for each line element (in document order,
0-indexed by `enumerate`) one row per triple of `split_on_words` applied to
the line's normalized extracted text.  The document is represented by the
list of its `tei:l` elements in document order, as `root.findall` returns
them. -/
def extract_kwic (lines : List Element) : List (List (List Char)) :=
  headerRow ::
    (lines.enum.flatMap (fun p =>
      (split_on_words (normalize (extract_text p.2))).map (kwicRow p.1)))

/-- Modelled from the spec: `xml.etree.ElementTree.parse` raises
`xml.etree.ElementTree.ParseError` when the document is not well-formed
XML; the parser itself is not part of this repository, so parsing is
represented by its outcome. -/
inductive ParseError where
  | malformed (msg : String)
deriving DecidableEq

/-- The whole run of `extract_kwic` including the initial `ET.parse` call
(src/extract.py line 203): the source wraps the parse in no `try`/`except`,
so a `ParseError` propagates out of `extract_kwic` unchanged and nothing is
written (the output file is only opened after the parse succeeds). -/
def extract_kwic_run (parsed : Except ParseError (List Element)) :
    Except ParseError (List (List (List Char))) :=
  match parsed with
  | .error e => .error e
  | .ok lines => .ok (extract_kwic lines)

example :
    extract_kwic [.mk (teiNs ++ "l") "On word".data [] []] =
    [headerRow,
     ["0".data, create_line_reference 0, [], "On".data, " word".data,
      create_word_reference "On".data, "on".data],
     ["0".data, create_line_reference 0, "On ".data, "word".data, [],
      create_word_reference "word".data, "word".data]] := by decide

/-! Segmentation lemmas -/

theorem chunkAux_flatten (glue : Char → Char → Bool) :
    ∀ (rest : List Char) (a : Char) (run : List Char),
      (chunkAux glue a run rest).flatten = run.reverse ++ rest := by
  intro rest
  induction rest with
  | nil => intro a run; simp [chunkAux]
  | cons c rest ih =>
    intro a run
    by_cases h : glue a c = true
    · simp [chunkAux, h, ih]
    · simp only [chunkAux, h]
      simp [ih]

theorem chunk_flatten (glue : Char → Char → Bool) (s : List Char) :
    (chunk glue s).flatten = s := by
  cases s with
  | nil => rfl
  | cons c rest => simp [chunk, chunkAux_flatten]

theorem words_flatten (s : List Char) : (words s).flatten = s :=
  chunk_flatten wbGlue s

theorem take_getElem_drop_eq {α : Type} (ws : List α) (i : Nat)
    (h : i < ws.length) :
    ws = ws.take i ++ ws.get ⟨i, h⟩ :: ws.drop (i + 1) := by
  conv_lhs => rw [← List.take_append_drop i ws]
  congr 1
  rw [List.get_eq_getElem]
  exact List.drop_eq_getElem_cons h

theorem flatten_take_getElem_drop {α : Type} (ws : List (List α)) (i : Nat)
    (h : i < ws.length) :
    (ws.take i).flatten ++ (ws.get ⟨i, h⟩ ++ (ws.drop (i + 1)).flatten) =
      ws.flatten := by
  conv_rhs =>
    rw [take_getElem_drop_eq ws i h, List.flatten_append, List.flatten_cons]

/-- C1: every triple (L, W, R) yielded by `split_on_words` on input `S`
concatenates back to `S` exactly: the word-boundary segments are a lossless
decomposition and each emitted row's left context, word and right context
reconstruct the whole line. -/
theorem split_on_words_round_trip (s L W R : List Char)
    (h : (L, W, R) ∈ split_on_words s) : L ++ W ++ R = s := by
  simp only [split_on_words, List.mem_filterMap] at h
  obtain ⟨p, hp, heq⟩ := h
  by_cases halpha : contains_alphabetic p.2 = true
  · simp only [halpha, if_true, Option.some.injEq, Prod.mk.injEq] at heq
    obtain ⟨hL, hW, hR⟩ := heq
    rw [List.mem_enum_iff_getElem?] at hp
    rw [List.getElem?_eq_some] at hp
    obtain ⟨hlt, hw⟩ := hp
    have hgw : (words s).get ⟨p.1, hlt⟩ = p.2 := by
      rw [List.get_eq_getElem]; exact hw
    subst hL hW hR
    rw [List.append_assoc, ← hgw]
    rw [flatten_take_getElem_drop (words s) p.1 hlt, words_flatten]
  · simp [halpha] at heq

/-- C1 witness instance. -/
theorem split_on_words_round_trip_witness :
    "ab ".data ++ "cd".data ++ [] = "ab cd".data :=
  split_on_words_round_trip "ab cd".data "ab ".data "cd".data [] (by decide)

/-- C4: a segment yields a ContextTriple iff it contains at least one
alphabetic character: every emitted word contains one, and every segment of
the word-boundary decomposition that contains one is emitted, with the
surrounding segments as its contexts. -/
theorem split_on_words_alphabetic_iff (s : List Char) :
    (∀ L W R, (L, W, R) ∈ split_on_words s →
      contains_alphabetic W = true) ∧
    (∀ i w, (words s)[i]? = some w → contains_alphabetic w = true →
      (((words s).take i).flatten, w, ((words s).drop (i + 1)).flatten) ∈
        split_on_words s) := by
  constructor
  · intro L W R h
    simp only [split_on_words, List.mem_filterMap] at h
    obtain ⟨p, _, heq⟩ := h
    by_cases halpha : contains_alphabetic p.2 = true
    · simp only [halpha, if_true, Option.some.injEq, Prod.mk.injEq] at heq
      rw [← heq.2.1]
      exact halpha
    · simp [halpha] at heq
  · intro i w hget halpha
    simp only [split_on_words, List.mem_filterMap]
    refine ⟨(i, w), ?_, ?_⟩
    · rw [List.mem_enum_iff_getElem?]
      exact hget
    · simp [halpha]

/-- C4 witness instance. -/
theorem split_on_words_alphabetic_iff_witness :
    contains_alphabetic "cd".data = true ∧
    ("ab ".data, "cd".data, ([] : List Char)) ∈ split_on_words "ab cd".data := by
  refine ⟨by decide, ?_⟩
  have h := (split_on_words_alphabetic_iff "ab cd".data).2 2 "cd".data
    (by decide) (by decide)
  exact h

/-! Normalization lemmas -/

/-- The words of a whitespace split: non-empty and free of whitespace. -/
def goodWords (ws : List (List Char)) : Prop :=
  ∀ w ∈ ws, w ≠ [] ∧ ∀ c ∈ w, pyIsSpace c = false

theorem pyIsSpace_space : pyIsSpace ' ' = true := by decide

theorem pyIsSpace_newline : pyIsSpace '\n' = true := by decide

theorem pyIsSpace_tab : pyIsSpace '\t' = true := by decide

theorem pySplitAux_nil (acc : List Char) :
    pySplitAux acc [] = if acc.isEmpty then [] else [acc.reverse] := rfl

theorem pySplitAux_cons (acc : List Char) (c : Char) (rest : List Char) :
    pySplitAux acc (c :: rest) =
      if pyIsSpace c then
        (if acc.isEmpty then pySplitAux [] rest
         else acc.reverse :: pySplitAux [] rest)
      else pySplitAux (c :: acc) rest := rfl

theorem joinSp_single (w : List Char) : joinSp [w] = w := rfl

theorem joinSp_cons2 (w v : List Char) (ws : List (List Char)) :
    joinSp (w :: v :: ws) = w ++ ' ' :: joinSp (v :: ws) := rfl

theorem pySplitAux_sound :
    ∀ (rest acc : List Char), (∀ c ∈ acc, pyIsSpace c = false) →
      ∀ w ∈ pySplitAux acc rest, w ≠ [] ∧ ∀ c ∈ w, pyIsSpace c = false := by
  intro rest
  induction rest with
  | nil =>
    intro acc hacc w hw
    rw [pySplitAux_nil] at hw
    by_cases he : acc.isEmpty = true
    · rw [if_pos he] at hw
      simp at hw
    · rw [if_neg he] at hw
      rcases List.mem_singleton.mp hw with rfl
      refine ⟨?_, ?_⟩
      · intro hnil
        exact he (List.isEmpty_iff.mpr (List.reverse_eq_nil_iff.mp hnil))
      · intro c hc
        exact hacc c (List.mem_reverse.mp hc)
  | cons c rest ih =>
    intro acc hacc w hw
    rw [pySplitAux_cons] at hw
    by_cases hs : pyIsSpace c = true
    · rw [if_pos hs] at hw
      by_cases he : acc.isEmpty = true
      · rw [if_pos he] at hw
        exact ih [] (by simp) w hw
      · rw [if_neg he] at hw
        rcases List.mem_cons.mp hw with rfl | hw
        · refine ⟨?_, ?_⟩
          · intro hnil
            exact he (List.isEmpty_iff.mpr (List.reverse_eq_nil_iff.mp hnil))
          · intro d hd
            exact hacc d (List.mem_reverse.mp hd)
        · exact ih [] (by simp) w hw
    · rw [if_neg hs] at hw
      refine ih (c :: acc) ?_ w hw
      intro d hd
      rcases List.mem_cons.mp hd with rfl | hd
      · simpa using hs
      · exact hacc d hd

theorem pySplit_goodWords (s : List Char) : goodWords (pySplit s) := by
  intro w hw
  exact pySplitAux_sound s [] (by simp) w hw

theorem pySplitAux_append :
    ∀ (w acc t : List Char), (∀ c ∈ w, pyIsSpace c = false) →
      pySplitAux acc (w ++ t) = pySplitAux (w.reverse ++ acc) t := by
  intro w
  induction w with
  | nil => intro acc t _; simp
  | cons c w ih =>
    intro acc t hw
    have hc : ¬pyIsSpace c = true := by
      simpa using hw c (by simp)
    rw [List.cons_append, pySplitAux_cons, if_neg hc,
      ih (c :: acc) t (fun d hd => hw d (by simp [hd]))]
    simp

theorem pySplit_joinSp :
    ∀ ws : List (List Char), goodWords ws → pySplit (joinSp ws) = ws := by
  intro ws
  induction ws with
  | nil => intro _; rfl
  | cons w rest ih =>
    intro h
    obtain ⟨hw, hnospace⟩ := h w (by simp)
    have he : ¬(w.reverse).isEmpty = true := by
      intro hyp
      exact hw (List.reverse_eq_nil_iff.mp (List.isEmpty_iff.mp hyp))
    cases rest with
    | nil =>
      show pySplitAux [] (joinSp [w]) = [w]
      rw [joinSp_single]
      have h1 := pySplitAux_append w [] [] hnospace
      simp only [List.append_nil] at h1
      rw [h1, pySplitAux_nil, if_neg he, List.reverse_reverse]
    | cons v rest2 =>
      show pySplitAux [] (joinSp (w :: v :: rest2)) = w :: v :: rest2
      rw [joinSp_cons2]
      have h1 := pySplitAux_append w [] (' ' :: joinSp (v :: rest2)) hnospace
      simp only [List.append_nil] at h1
      rw [h1, pySplitAux_cons, if_pos pyIsSpace_space, if_neg he,
        List.reverse_reverse]
      have h2 : pySplitAux [] (joinSp (v :: rest2)) = v :: rest2 :=
        ih (fun u hu => h u (by simp [hu]))
      rw [h2]

theorem joinSp_chars :
    ∀ ws : List (List Char), (∀ w ∈ ws, ∀ c ∈ w, pyIsSpace c = false) →
      ∀ c ∈ joinSp ws, c = ' ' ∨ pyIsSpace c = false := by
  intro ws
  induction ws with
  | nil => intro _ c hc; simp [joinSp] at hc
  | cons w rest ih =>
    intro h c hc
    cases rest with
    | nil =>
      simp only [joinSp] at hc
      exact Or.inr (h w (by simp) c hc)
    | cons v rest2 =>
      simp only [joinSp, List.mem_append, List.mem_cons] at hc
      rcases hc with hc | hc | hc
      · exact Or.inr (h w (by simp) c hc)
      · exact Or.inl hc
      · exact ih (fun u hu => h u (by simp [hu])) c hc

theorem replaceNlTab_eq_self (l : List Char)
    (h : ∀ c ∈ l, c = ' ' ∨ pyIsSpace c = false) : replaceNlTab l = l := by
  induction l with
  | nil => rfl
  | cons c rest ih =>
    have hc := h c (by simp)
    have hnot : ¬(c = '\n' ∨ c = '\t') := by
      rintro (rfl | rfl)
      · rcases hc with hc | hc
        · cases hc
        · rw [pyIsSpace_newline] at hc; cases hc
      · rcases hc with hc | hc
        · cases hc
        · rw [pyIsSpace_tab] at hc; cases hc
    simp only [replaceNlTab, List.map_cons, if_neg hnot]
    have := ih (fun d hd => h d (by simp [hd]))
    simp only [replaceNlTab] at this
    rw [this]

theorem dropWhile_joinSp (ws : List (List Char)) (h : goodWords ws) :
    (joinSp ws).dropWhile pyIsSpace = joinSp ws := by
  cases ws with
  | nil => rfl
  | cons w rest =>
    obtain ⟨hw, hnospace⟩ := h w (by simp)
    cases w with
    | nil => cases hw rfl
    | cons c wtail =>
      have hc : pyIsSpace c = false := hnospace c (by simp)
      cases rest with
      | nil => simp [joinSp, List.dropWhile_cons, hc]
      | cons v rest2 => simp [joinSp, List.dropWhile_cons, hc]

theorem joinSp_append_single (xs : List (List Char)) (y : List Char)
    (h : xs ≠ []) : joinSp (xs ++ [y]) = joinSp xs ++ ' ' :: y := by
  induction xs with
  | nil => cases h rfl
  | cons w rest ih =>
    cases rest with
    | nil =>
      rw [List.singleton_append, joinSp_cons2, joinSp_single, joinSp_single]
    | cons v rest2 =>
      rw [List.cons_append, List.cons_append, joinSp_cons2,
        ← List.cons_append, ih (by simp), joinSp_cons2]
      simp

theorem joinSp_reverse :
    ∀ ws : List (List Char),
      (joinSp ws).reverse = joinSp ((ws.map List.reverse).reverse) := by
  intro ws
  induction ws with
  | nil => rfl
  | cons w rest ih =>
    cases rest with
    | nil => simp [joinSp_single]
    | cons v rest2 =>
      have hsplit : ((w :: v :: rest2).map List.reverse).reverse =
          ((v :: rest2).map List.reverse).reverse ++ [w.reverse] := by
        simp
      rw [joinSp_cons2, hsplit,
        joinSp_append_single _ _ (by simp), ← ih]
      simp [List.reverse_append]

theorem goodWords_rev (ws : List (List Char)) (h : goodWords ws) :
    goodWords ((ws.map List.reverse).reverse) := by
  intro w hw
  rw [List.mem_reverse, List.mem_map] at hw
  obtain ⟨u, hu, rfl⟩ := hw
  obtain ⟨hne, hns⟩ := h u hu
  refine ⟨by simpa using hne, ?_⟩
  intro c hc
  exact hns c (List.mem_reverse.mp hc)

theorem map_reverse_reverse_cancel (ws : List (List Char)) :
    ((((ws.map List.reverse).reverse).map List.reverse).reverse) = ws := by
  rw [← List.map_reverse, List.reverse_reverse, List.map_map]
  simp

theorem pyStrip_joinSp (ws : List (List Char)) (h : goodWords ws) :
    pyStrip (joinSp ws) = joinSp ws := by
  unfold pyStrip
  rw [dropWhile_joinSp ws h, joinSp_reverse ws,
    dropWhile_joinSp _ (goodWords_rev ws h),
    joinSp_reverse ((ws.map List.reverse).reverse),
    map_reverse_reverse_cancel]

theorem normalize_eq_joinSp (s : List Char) :
    normalize s = joinSp (pySplit (replaceNlTab s)) :=
  pyStrip_joinSp _ (pySplit_goodWords _)

/-- C5: the whitespace normalization of `extract_kwic` (newlines and tabs
to spaces, whitespace runs collapsed to one space, ends stripped) is
idempotent: normalizing an already-normalized string returns it
unchanged. -/
theorem normalize_idempotent (s : List Char) :
    normalize (normalize s) = normalize s := by
  rw [normalize_eq_joinSp s]
  set ws := pySplit (replaceNlTab s) with hws
  have hgood : goodWords ws := pySplit_goodWords _
  show normalize (joinSp ws) = joinSp ws
  unfold normalize
  rw [replaceNlTab_eq_self (joinSp ws)
      (joinSp_chars ws (fun w hw => (hgood w hw).2)),
    pySplit_joinSp ws hgood, pyStrip_joinSp ws hgood]

/-! Flattening lemmas -/

theorem pyStrip_nil : pyStrip [] = [] := rfl

/-- Two elements agree on everything `extract_text` reads of a direct
child: tag, text and tail (their own children are unconstrained). -/
def shallowEq (c d : Element) : Prop :=
  c.tag = d.tag ∧ c.text = d.text ∧ c.tail = d.tail

/-- The allow-list exactly as the specification's claim lists it. -/
def specAllowList : List String :=
  [teiNs ++ "persName", teiNs ++ "placeName", teiNs ++ "foreign",
   teiNs ++ "date", teiNs ++ "l"]

/-- The flattening rule in the specification's words: the fragments are the
element's own leading text, then per child the child's direct text when its
tag is allow-listed (nothing otherwise) and the child's tail text; each
fragment is stripped and the non-empty ones are joined with one space. -/
def extract_text_spec (e : Element) : List Char :=
  let fragments : List (List Char) :=
    e.text :: e.children.flatMap (fun c =>
      [(if specAllowList.contains c.tag then c.text else []), c.tail])
  joinSp ((fragments.map pyStrip).filter (fun p => !p.isEmpty))

theorem filter_flatMap_comm {α β : Type} (l : List α) (f : α → List β)
    (p : β → Bool) :
    (l.flatMap f).filter p = l.flatMap (fun a => (f a).filter p) := by
  induction l with
  | nil => rfl
  | cons a l ih => simp [List.flatMap_cons, List.filter_append, ih]

theorem filter_text_guard (g : Bool) (x : List Char) :
    List.filter (fun p => !p.isEmpty)
      (if g && !x.isEmpty then [pyStrip x] else []) =
    List.filter (fun p => !p.isEmpty) [pyStrip (if g then x else [])] := by
  cases g
  · simp [pyStrip_nil]
  · by_cases hx : x.isEmpty = true
    · rw [List.isEmpty_iff.mp hx]
      simp [pyStrip_nil]
    · simp [hx]

theorem filter_tail_guard (x : List Char) :
    List.filter (fun p => !p.isEmpty)
      (if x.isEmpty then [] else [pyStrip x]) =
    List.filter (fun p => !p.isEmpty) [pyStrip x] := by
  by_cases hx : x.isEmpty = true
  · rw [if_pos hx, List.isEmpty_iff.mp hx]
    simp [pyStrip_nil]
  · rw [if_neg hx]

theorem filter_pair_split (a b : List Char) :
    List.filter (fun p => !p.isEmpty) [a, b] =
      List.filter (fun p => !p.isEmpty) [a] ++
        List.filter (fun p => !p.isEmpty) [b] := by
  rw [show ([a, b] : List (List Char)) = [a] ++ [b] from rfl,
    List.filter_append]

theorem child_fragments_eq (c : Element) :
    List.filter (fun p => !p.isEmpty)
      ((if keep_tags.contains c.tag && !c.text.isEmpty then
          [pyStrip c.text]
        else []) ++
       (if c.tail.isEmpty then [] else [pyStrip c.tail])) =
    List.filter (fun p => !p.isEmpty)
      ([(if specAllowList.contains c.tag then c.text else []),
        c.tail].map pyStrip) := by
  have hspec : specAllowList = keep_tags := rfl
  rw [hspec, List.map_cons, List.map_cons, List.map_nil, filter_pair_split,
    List.filter_append]
  congr 1
  · exact filter_text_guard (keep_tags.contains c.tag) c.text
  · exact filter_tail_guard c.tail

theorem flatMap_shallow_congr (f : String → List Char → List Char →
      List (List Char)) :
    ∀ (cs cs2 : List Element), List.Forall₂ shallowEq cs cs2 →
      cs.flatMap (fun c => f c.tag c.text c.tail) =
        cs2.flatMap (fun c => f c.tag c.text c.tail) := by
  intro cs cs2 h
  induction h with
  | nil => rfl
  | cons hcd _ ih =>
    obtain ⟨h1, h2, h3⟩ := hcd
    simp only [List.flatMap_cons, ih, h1, h2, h3]

/-- C2: the line flattening keeps exactly the element's own leading text,
the direct text of allow-listed direct children, and every child's tail,
each stripped, non-empty fragments joined by single spaces — and the text
of a child's own descendants contributes nothing: replacing every child by
one with the same tag, text and tail but arbitrary different descendants
leaves the result unchanged. -/
theorem extract_text_spec_eq (e : Element) (cs2 : List Element)
    (h : List.Forall₂ shallowEq e.children cs2) :
    extract_text e = extract_text_spec e ∧
    extract_text (Element.mk e.tag e.text cs2 e.tail) = extract_text e := by
  obtain ⟨tg, tx, cs, tl⟩ := e
  have hch : Element.children (Element.mk tg tx cs tl) = cs := rfl
  rw [hch] at h
  constructor
  · simp only [extract_text, extract_text_spec, Element.text_mk,
      Element.children_mk]
    congr 1
    rw [List.map_cons,
      show ∀ (a : List Char) (l : List (List Char)),
          List.filter (fun p => !p.isEmpty) (a :: l) =
            List.filter (fun p => !p.isEmpty) [a] ++
              List.filter (fun p => !p.isEmpty) l from
        fun a l => by rw [← List.filter_append]; rfl,
      List.filter_append]
    congr 1
    · by_cases hT : tx.isEmpty = true
      · rw [List.isEmpty_iff.mp hT]
        simp [pyStrip_nil]
      · simp [hT]
    · rw [List.map_flatMap, filter_flatMap_comm, filter_flatMap_comm]
      congr 1
      funext c
      exact child_fragments_eq c
  · simp only [extract_text, Element.tag_mk, Element.text_mk,
      Element.children_mk, Element.tail_mk]
    have hcongr := flatMap_shallow_congr
      (fun g x t =>
        (if keep_tags.contains g && !x.isEmpty then [pyStrip x]
         else []) ++
        (if t.isEmpty then [] else [pyStrip t]))
      cs cs2 h
    simp only [] at hcongr
    rw [← hcongr]

/-- A line whose only child (a non-allow-listed `note`) carries a nested
`persName` grandchild: the grandchild's text must not leak into the
flattened text. -/
def lineWithNestedChild : Element :=
  .mk (teiNs ++ "l") "Hede ".data
    [.mk (teiNs ++ "note") "N".data
      [.mk (teiNs ++ "persName") "Peter".data [] []] " tayl".data]
    []

/-- The same child with its descendants removed. -/
def shallowChildren : List Element :=
  [.mk (teiNs ++ "note") "N".data [] " tayl".data]

/-- C2 witness instance. -/
theorem extract_text_spec_eq_witness :
    extract_text lineWithNestedChild = extract_text_spec lineWithNestedChild ∧
    extract_text (Element.mk lineWithNestedChild.tag lineWithNestedChild.text
      shallowChildren lineWithNestedChild.tail) =
      extract_text lineWithNestedChild :=
  extract_text_spec_eq lineWithNestedChild shallowChildren
    (List.Forall₂.cons ⟨rfl, rfl, rfl⟩ List.Forall₂.nil)

/-! Link formatting -/

/-- C3 counterexample: for the word `"a b"` the generated search URL
carries the space through verbatim — the f-string performs no
percent-encoding, so the URL contains an unescaped space, contrary to the
claim. -/
theorem create_search_link_unescaped_space :
    create_search_link ('a' :: ' ' :: ['b']) =
      "https://quod.lib.umich.edu/m/middle-english-dictionary/dictionary?utf8=%E2%9C%93&search_field=hnf&q=a b".data
    ∧ ' ' ∈ create_search_link ('a' :: ' ' :: ['b']) := by
  constructor
  · rfl
  · decide

/-- C3 amended: `word_reference` is a markdown link whose label is the word
and whose target is the fixed dictionary endpoint with the word appended
verbatim after `q=` (no percent-encoding is applied). -/
theorem create_word_reference_verbatim (w : List Char) :
    create_word_reference w =
      "[".data ++ w ++ "]".data ++ "(".data ++ create_search_link w ++
        ")".data
    ∧ create_search_link w = searchUrlBase ++ w := by
  constructor
  · have h1 : "[".data = ['['] := rfl
    have h2 : "]".data = [']'] := rfl
    have h3 : "(".data = ['('] := rfl
    have h4 : ")".data = [')'] := rfl
    rw [h1, h2, h3, h4, create_word_reference]
    simp
  · rfl

/-! KWIC output lemmas -/

theorem enumFrom_filterMap_length {α β : Type} (pred : α → Bool)
    (g : Nat × α → β) :
    ∀ (n : Nat) (l : List α),
      ((List.enumFrom n l).filterMap
        (fun p => if pred p.2 then some (g p) else none)).length =
      (l.filter pred).length := by
  intro n l
  induction l generalizing n with
  | nil => rfl
  | cons a l ih =>
    simp only [List.enumFrom, List.filterMap_cons, List.filter_cons]
    by_cases hp : pred a = true
    · simp [hp, ih]
    · simp [hp, ih]

theorem enum_eq_enumFrom_zero {α : Type} (l : List α) :
    l.enum = List.enumFrom 0 l := rfl

theorem split_on_words_length (t : List Char) :
    (split_on_words t).length =
      ((words t).filter contains_alphabetic).length := by
  rw [split_on_words]
  rw [enum_eq_enumFrom_zero]
  exact enumFrom_filterMap_length contains_alphabetic _ 0 (words t)

/-- The rows `extract_kwic` emits for the line at index `p.1`. -/
def perLineRows (p : Nat × Element) : List (List (List Char)) :=
  (split_on_words (normalize (extract_text p.2))).map (kwicRow p.1)

/-- C6: the data rows are the per-line row groups concatenated in document
order (lines indexed by `enumerate`, triples in segment order), and the
group for a line has exactly one row per alphabetic segment of the line's
normalized text. -/
theorem extract_kwic_row_count (lines : List Element) (n : Nat)
    (l : Element) :
    extract_kwic lines = headerRow :: (lines.enum.map perLineRows).flatten ∧
    (perLineRows (n, l)).length =
      ((words (normalize (extract_text l))).filter
        contains_alphabetic).length := by
  constructor
  · rw [extract_kwic, List.flatMap_def]
    rfl
  · rw [perLineRows, List.length_map]
    exact split_on_words_length (normalize (extract_text l))

/-- C7: in every data row of the output, the `word_lower` cell (index 6)
is the `word` cell (index 3) lower-cased. -/
theorem word_lower_is_lowered (lines : List Element)
    (row : List (List Char)) (h : row ∈ (extract_kwic lines).tail) :
    row[6]? = (row[3]?).map pyLower := by
  simp only [extract_kwic, List.tail_cons] at h
  rw [List.mem_flatMap] at h
  obtain ⟨p, _, hrow⟩ := h
  rw [List.mem_map] at hrow
  obtain ⟨t, _, rfl⟩ := hrow
  rfl

/-- C7 witness instance. -/
theorem word_lower_is_lowered_witness :
    (["0".data, create_line_reference 0, [], "Word".data, [],
      create_word_reference "Word".data, "word".data] :
      List (List Char))[6]? =
    ((["0".data, create_line_reference 0, [], "Word".data, [],
      create_word_reference "Word".data, "word".data] :
      List (List Char))[3]?).map pyLower :=
  word_lower_is_lowered [Element.mk (teiNs ++ "l") "Word".data [] []]
    _ (by decide)

/-- C8: the first row of the output is the fixed seven-column header, in
this exact order, before any data row. -/
theorem header_row_first (lines : List Element) :
    (extract_kwic lines).head? =
      some ["line_number".data, "reference".data, "left_context".data,
        "word".data, "right_context".data, "word_reference".data,
        "word_lower".data] := rfl

/-- C9: a ParseError from parsing the document propagates out of the run
unchanged — nothing catches or retries it — while a successful parse always
yields a full output; there is no per-line or transient-failure
recovery. -/
theorem parse_error_propagates (e : ParseError) :
    extract_kwic_run (Except.error e) = Except.error e ∧
    ∀ lines : List Element,
      extract_kwic_run (Except.ok lines) = Except.ok (extract_kwic lines) :=
  ⟨rfl, fun _ => rfl⟩

/-- C10: the header is written before the line loop, so a document whose
lines all yield no alphabetic segments (or that has no lines at all)
produces exactly the header row and nothing else. -/
theorem header_only_when_no_words (lines : List Element)
    (h : ∀ l ∈ lines, split_on_words (normalize (extract_text l)) = []) :
    extract_kwic lines =
      [["line_number".data, "reference".data, "left_context".data,
        "word".data, "right_context".data, "word_reference".data,
        "word_lower".data]] := by
  have hnil : lines.enum.flatMap (fun p =>
      (split_on_words (normalize (extract_text p.2))).map (kwicRow p.1)) =
      [] := by
    rw [List.flatMap_eq_nil_iff]
    intro p hp
    have hmem : p.2 ∈ lines := by
      rw [List.mem_enum_iff_getElem?, List.getElem?_eq_some] at hp
      obtain ⟨hlt, heq⟩ := hp
      exact heq ▸ List.getElem_mem hlt
    rw [h p.2 hmem, List.map_nil]
  rw [extract_kwic, hnil]
  rfl

/-- C10 witness instance. -/
theorem header_only_when_no_words_witness :
    extract_kwic [Element.mk (teiNs ++ "l") "123 !?".data [] [],
                  Element.mk (teiNs ++ "l") [] [] []] =
      [["line_number".data, "reference".data, "left_context".data,
        "word".data, "right_context".data, "word_reference".data,
        "word_lower".data]] :=
  header_only_when_no_words _ (by decide)

end PearlKwic
